import Mathlib

/-!
# branchless_control: mask primitives, selects and control-flow combinators

A shallow embedding of `branchless_control.h` (and of the procedures of
`test.c` that drive it).  Machine integers of width `W` are natural numbers
below `2 ^ W`; every C operation that can leave that range is reduced modulo
`2 ^ W` explicitly.  The macros are type-generic through `typeof`, so each
definition takes the bit width `W` of the operand type as its first argument.
-/

namespace BranchlessControl

/-! ## Machine integers -/

/-- The W-bit value with every bit set. -/
def allOnes (W : Nat) : Nat := 2 ^ W - 1

/-- Conversion to a W-bit unsigned type: the cast `(typeof(A))(X)`. -/
def wcast (W X : Nat) : Nat := X % 2 ^ W

/-- Unary minus `-(X)` in a W-bit unsigned type (negation modulo `2 ^ W`). -/
def wneg (W X : Nat) : Nat := (2 ^ W - X % 2 ^ W) % 2 ^ W

/-- Binary minus `(X) - (Y)` in a W-bit unsigned type (wraparound). -/
def wsub (W X Y : Nat) : Nat := (X % 2 ^ W + (2 ^ W - Y % 2 ^ W)) % 2 ^ W

/-- Binary plus `(X) + (Y)` in a W-bit unsigned type (wraparound). -/
def wadd (W X Y : Nat) : Nat := (X + Y) % 2 ^ W

/-- Two's-complement signed reading of a W-bit pattern: the top bit weighs
`-2 ^ (W - 1)`. -/
def toSigned (W X : Nat) : Int :=
  if X < 2 ^ (W - 1) then (X : Int) else (X : Int) - (2 : Int) ^ W

/-- The width of `int`. -/
def INT_BITS : Nat := 32

/-- `#define _msign(X) ((typeof((X)))(-((X) >> (sizeof((X))*CHAR_BIT-1))))`
for an unsigned operand: `>>` is the logical shift, `sizeof(X)*CHAR_BIT` is
the width `W`. -/
def _msign (W X : Nat) : Nat := wneg W (X >>> (W - 1))

/-- `#define _mnez(X) _msign((typeof((X)))((X) | (-(X))))`. -/
def _mnez (W X : Nat) : Nat := _msign W (wcast W (X ||| wneg W X))

/-- `#define _mux(X, A, B) ((((A) ^ (B)) & ((typeof((A)))(X))) ^ (B))`,
the multiplexer compiled when `ADD_MULTIPLEX` is not defined. -/
def _mux (W M A B : Nat) : Nat := ((A ^^^ B) &&& wcast W M) ^^^ B

/-- `#define selnez(X, A, B) _mux(_mnez((typeof((A)))(X)), (A), (B))`. -/
def selnez (W X A B : Nat) : Nat := _mux W (_mnez W (wcast W X)) A B

/-- The macro `_mnez(X)` pastes its argument twice, in `(X) | (-(X))`.  When
the argument has side effects the two copies are evaluated separately:
`Xl` is the value of the left copy and `Xr` that of the negated right copy. -/
def _mnez2 (W Xl Xr : Nat) : Nat := _msign W (wcast W (Xl ||| wneg W Xr))

/-- `selnez(X, A, B)` for an argument `X` with side effects, whose two copies
inside `_mnez` evaluate to `Xl` and `Xr`; `A` and `B` have no side effects. -/
def selnez2 (W Xl Xr A B : Nat) : Nat := _mux W (_mnez2 W (wcast W Xl) (wcast W Xr)) A B

/-- `#define selltz(X, A, B) _mux(_msign((typeof((A)))(X)), (A), (B))`. -/
def selltz (W X A B : Nat) : Nat := _mux W (_msign W (wcast W X)) A B

/-- `#define seleq(X, Y, A, B) selnez(((X) ^ (Y)), (A), (B))`. -/
def seleq (W X Y A B : Nat) : Nat := selnez W (X ^^^ Y) A B

/-- `#define sellt(X, Y, A, B) selltz(((X) - (Y)), (A), (B))`. -/
def sellt (W X Y A B : Nat) : Nat := selltz W (wsub W X Y) A B

/-- `#define selne(X, Y, A, B) seleq((X), (Y), (B), (A))`. -/
def selne (W X Y A B : Nat) : Nat := seleq W X Y B A

/-- `#define selgt(X, Y, A, B) sellt((Y), (X), (A), (B))`. -/
def selgt (W X Y A B : Nat) : Nat := sellt W Y X A B

/-- `#define selle(X, Y, A, B) selgt((X), (Y), (B), (A))`. -/
def selle (W X Y A B : Nat) : Nat := selgt W X Y B A

/-- `#define selge(X, Y, A, B) sellt((X), (Y), (B), (A))`. -/
def selge (W X Y A B : Nat) : Nat := sellt W X Y B A

/-! ## Procedures, call traces and code addresses

A procedure reference `void (*)()` is a state transformer `σ → σ`; a condition
procedure `unsigned int (*)()` also returns a value.  Every call made through
such a reference is recorded in a trace, so that two runs can be compared call
by call.  `unsigned int` is 32 bits wide; `uintptr_t` is `P` bits wide. -/

/-- The width of `unsigned int`. -/
def UINT_BITS : Nat := 32

/-- Which caller-supplied procedure a call went to. -/
inductive Call where
  | init
  | cond
  | step
  | body
  deriving DecidableEq

/-- The calls made so far, oldest first, and the state they have produced. -/
structure Run (σ : Type) where
  trace : List Call
  state : σ
  deriving DecidableEq

/-- A call `p()` of a `void` procedure, recorded under the tag `k`. -/
def callProc {σ : Type} (k : Call) (p : σ → σ) (r : Run σ) : Run σ :=
  ⟨r.trace ++ [k], p r.state⟩

/-- A call `_condition()`: the returned `unsigned int` and the run after it. -/
def callCond {σ : Type} (cond : σ → Nat × σ) (r : Run σ) : Nat × Run σ :=
  (wcast UINT_BITS (cond r.state).1, ⟨r.trace ++ [Call.cond], (cond r.state).2⟩)

/-- The addresses `(uintptr_t)branchless_do_while`, `(uintptr_t)end_while`,
`(uintptr_t)branchless_continue_for` and `(uintptr_t)end_for` that the
combinators select between; the linker chooses them. -/
structure CodeAddrs where
  branchless_do_while : Nat
  end_while : Nat
  branchless_continue_for : Nat
  end_for : Nat
  deriving DecidableEq

/-- The addresses fit `uintptr_t` and distinct functions have distinct
addresses. -/
def CodeAddrs.valid (L : CodeAddrs) (P : Nat) : Prop :=
  L.branchless_do_while < 2 ^ P ∧ L.end_while < 2 ^ P ∧
    L.branchless_continue_for < 2 ^ P ∧ L.end_for < 2 ^ P ∧
    L.branchless_do_while ≠ L.end_while ∧ L.branchless_continue_for ≠ L.end_for

instance (L : CodeAddrs) (P : Nat) : Decidable (L.valid P) := by
  unfold CodeAddrs.valid
  infer_instance

/-! ## The conditional combinator (header lines 121 to 129) -/

/-- The indirect call `((void(*)())a)()`: the procedure stored at address `a`
runs and the address is appended to the list of invoked addresses; there is
no result when no procedure lives at `a`. -/
def invoke {σ : Type} (procs : Nat → Option (σ → σ)) (a : Nat)
    (t : List Nat × σ) : Option (List Nat × σ) :=
  match procs a with
  | none => none
  | some p => some (t.1 ++ [a], p t.2)

/-- `branchless_if(c, cs, ce)`:
`((void(*)())selnez(c, (uintptr_t)cs, (uintptr_t)ce))();`
with `selnez` instantiated at the type of `(uintptr_t)cs`. -/
def branchless_if {σ : Type} (P : Nat) (procs : Nat → Option (σ → σ))
    (c cs ce : Nat) (t : List Nat × σ) : Option (List Nat × σ) :=
  invoke procs (selnez P c cs ce) t

/-! ## The iterative combinators (header lines 131 to 184)

The recursion of the C functions has no bound, so each recursive function
takes a fuel argument that bounds the depth of the recursion; `none` is a run
that exhausted it or that called an address where none of the two candidate
functions lives. -/

/-- The expression `selnez(_condition(), (uintptr_t)a, (uintptr_t)b)` that
every combinator evaluates.  Through `_mnez` the macro pastes `_condition()`
twice, so the condition procedure is called twice; C leaves the order of the
two operands of `|` open, and `ltr` says whether the left one is evaluated
first.  The result is the selected address and the run after both calls. -/
def selectByCond {σ : Type} (ltr : Bool) (P : Nat) (cond : σ → Nat × σ)
    (a b : Nat) (r : Run σ) : Nat × Run σ :=
  let c1 := callCond cond r
  let c2 := callCond cond c1.2
  (if ltr then selnez2 P c1.1 c2.1 a b else selnez2 P c2.1 c1.1 a b, c2.2)

/-- `end_while(cond, f)`: returns at once. -/
def end_while {σ : Type} (_cond : σ → Nat × σ) (_f : σ → σ) (r : Run σ) : Run σ := r

/-- `branchless_do_while(_condition, f)`: `f();` then the indirect call of
`selnez(_condition(), (uintptr_t)branchless_do_while, (uintptr_t)end_while)`
on `(_condition, f)`. -/
def branchless_do_while {σ : Type} (ltr : Bool) (P : Nat) (L : CodeAddrs)
    (cond : σ → Nat × σ) (f : σ → σ) : Nat → Run σ → Option (Run σ)
  | 0, _ => none
  | fuel + 1, r =>
    let r1 := callProc Call.body f r
    let sel := selectByCond ltr P cond L.branchless_do_while L.end_while r1
    if sel.1 = L.branchless_do_while then
      branchless_do_while ltr P L cond f fuel sel.2
    else if sel.1 = L.end_while then
      some (end_while cond f sel.2)
    else none

/-- `branchless_while(_condition, f)`: the indirect call of
`selnez(_condition(), (uintptr_t)branchless_do_while, (uintptr_t)end_while)`
on `(_condition, f)`. -/
def branchless_while {σ : Type} (ltr : Bool) (P : Nat) (L : CodeAddrs)
    (cond : σ → Nat × σ) (f : σ → σ) (fuel : Nat) (r : Run σ) : Option (Run σ) :=
  let sel := selectByCond ltr P cond L.branchless_do_while L.end_while r
  if sel.1 = L.branchless_do_while then
    branchless_do_while ltr P L cond f fuel sel.2
  else if sel.1 = L.end_while then
    some (end_while cond f sel.2)
  else none

/-- `end_for(_condition, expression, f)`: returns at once. -/
def end_for {σ : Type} (_cond : σ → Nat × σ) (_expression : σ → σ) (_f : σ → σ)
    (r : Run σ) : Run σ := r

/-- `branchless_continue_for(_condition, expression, f)`: `f();`
`expression();` then the indirect call of `selnez(_condition(),
(uintptr_t)branchless_continue_for, (uintptr_t)end_for)` on the same three
references. -/
def branchless_continue_for {σ : Type} (ltr : Bool) (P : Nat) (L : CodeAddrs)
    (cond : σ → Nat × σ) (expression : σ → σ) (f : σ → σ) :
    Nat → Run σ → Option (Run σ)
  | 0, _ => none
  | fuel + 1, r =>
    let r1 := callProc Call.body f r
    let r2 := callProc Call.step expression r1
    let sel := selectByCond ltr P cond L.branchless_continue_for L.end_for r2
    if sel.1 = L.branchless_continue_for then
      branchless_continue_for ltr P L cond expression f fuel sel.2
    else if sel.1 = L.end_for then
      some (end_for cond expression f sel.2)
    else none

/-- `branchless_for(init, _condition, expression, f)`: `init();` then the
indirect call of `selnez(_condition(), (uintptr_t)branchless_continue_for,
(uintptr_t)end_for)`. -/
def branchless_for {σ : Type} (ltr : Bool) (P : Nat) (L : CodeAddrs) (init : σ → σ)
    (cond : σ → Nat × σ) (expression : σ → σ) (f : σ → σ) (fuel : Nat)
    (r : Run σ) : Option (Run σ) :=
  let r0 := callProc Call.init init r
  let sel := selectByCond ltr P cond L.branchless_continue_for L.end_for r0
  if sel.1 = L.branchless_continue_for then
    branchless_continue_for ltr P L cond expression f fuel sel.2
  else if sel.1 = L.end_for then
    some (end_for cond expression f sel.2)
  else none

/-! ## The native loops the combinators stand for (`test.c` lines 51, 63, 68)

These follow the C semantics of the loop statements, with the same fuel
convention: one unit per evaluation of the loop condition. -/

/-- The statement `while (cond()) { f(); }`. -/
def native_while {σ : Type} (cond : σ → Nat × σ) (f : σ → σ) :
    Nat → Run σ → Option (Run σ)
  | 0, _ => none
  | fuel + 1, r =>
    let cr := callCond cond r
    if cr.1 ≠ 0 then native_while cond f fuel (callProc Call.body f cr.2)
    else some cr.2

/-- The statement `do { f(); } while (cond());`. -/
def native_do_while {σ : Type} (cond : σ → Nat × σ) (f : σ → σ) :
    Nat → Run σ → Option (Run σ)
  | 0, _ => none
  | fuel + 1, r =>
    let cr := callCond cond (callProc Call.body f r)
    if cr.1 ≠ 0 then native_do_while cond f fuel cr.2
    else some cr.2

/-- The loop of `for (...; cond(); step()) { body(); }` once the initializer
has run. -/
def native_for_loop {σ : Type} (cond : σ → Nat × σ) (step : σ → σ) (body : σ → σ) :
    Nat → Run σ → Option (Run σ)
  | 0, _ => none
  | fuel + 1, r =>
    let cr := callCond cond r
    if cr.1 ≠ 0 then
      native_for_loop cond step body fuel
        (callProc Call.step step (callProc Call.body body cr.2))
    else some cr.2

/-- The statement `for (init(); cond(); step()) { body(); }`. -/
def native_for {σ : Type} (init : σ → σ) (cond : σ → Nat × σ) (step : σ → σ)
    (body : σ → σ) (fuel : Nat) (r : Run σ) : Option (Run σ) :=
  native_for_loop cond step body fuel (callProc Call.init init r)

/-- The call sequence of `m` iterations that each make the calls `block`. -/
def repeatBlock (block : List Call) : Nat → List Call
  | 0 => []
  | m + 1 => block ++ repeatBlock block m

/-! ## A small driver used to exercise the combinators

A counter that a body increments and a condition that compares with a bound,
in the manner of `test.c`. -/

/-- A body that increments the counter. -/
def bump (s : Nat) : Nat := s + 1

/-- A condition that is 1 while the counter is below 3 and leaves it alone. -/
def below3 (s : Nat) : Nat × Nat := (if s < 3 then 1 else 0, s)

/-- An initializer that resets the counter. -/
def reset (_s : Nat) : Nat := 0

/-- A condition with a side effect: it returns the first counter and
decrements it unless it is already 0,
`unsigned int take() { unsigned int c = n; n -= (n != 0); return c; }`. -/
def take (s : Nat × Nat) : Nat × (Nat × Nat) := (s.1, (s.1 - 1, s.2))

/-- A body that counts its executions in the second counter. -/
def work (s : Nat × Nat) : Nat × Nat := (s.1, s.2 + 1)

/-- An initializer that sets the first counter to 4 and the second to 0. -/
def start4 (_s : Nat × Nat) : Nat × Nat := (4, 0)

/-- Addresses for the four functions, as a 32-bit linker might place them. -/
def layout32 : CodeAddrs := ⟨4096, 4128, 4160, 4192⟩

/-- A procedure table with `bump` at address 64 and `reset` at address 96. -/
def procs2 (a : Nat) : Option (Nat → Nat) :=
  if a = 64 then some bump else if a = 96 then some reset else none

/-! ## The alternative multiplexer kept in a comment (header line 90) -/

/-- Bitwise complement `~(X)` in a W-bit unsigned type. -/
def wnot (W X : Nat) : Nat := 2 ^ W - 1 - X % 2 ^ W

/-- `#define _mux(X, A, B) ((~((typeof((A)))(X)) & (B)) | (((typeof((A)))(X)) & (A)))`,
the form left commented out beside the XOR multiplexer. -/
def _mux_or (W M A B : Nat) : Nat := (wnot W (wcast W M) &&& B) ||| (wcast W M &&& A)

/-! ## The macros on operands of signed type

For a signed operand C leaves `>>` implementation-defined; the usual
implementations shift arithmetically, filling the vacated top bits with the
sign bit.  `arith` says whether the implementation does so; with
`arith = false` the shift is the logical one of the unsigned case. -/

/-- `(X) >> k` on a W-bit operand of signed type under a sign-extending
shift: the logical shift, with the top `k` bits set when the sign bit is. -/
def sar (W X k : Nat) : Nat :=
  if X < 2 ^ (W - 1) then X >>> k else (X >>> k) ||| (allOnes W - allOnes (W - k))

/-- `_msign(X)` (header line 65) for `X` of a W-bit signed type. -/
def _msign_int (arith : Bool) (W X : Nat) : Nat :=
  wneg W (if arith then sar W X (W - 1) else X >>> (W - 1))

/-- `_mnez(X)` (header line 80) for `X` of a W-bit signed type. -/
def _mnez_int (arith : Bool) (W X : Nat) : Nat :=
  _msign_int arith W (wcast W (X ||| wneg W X))

/-- `_mnez(_mux(M, A, B))` for `A`, `B` of a W-bit unsigned type.  The
expression `_mux(M, A, B)` has the promoted type, so when the operand type is
narrower than `int` the `typeof` inside `_mnez` yields `int` and the mask is
computed on a signed operand. -/
def _mnez_of_mux (arith : Bool) (W M A B : Nat) : Nat :=
  if W < INT_BITS then _mnez_int arith INT_BITS (_mux W M A B)
  else _mnez W (_mux W M A B)

/-- `selltz(X, A, B)` (header line 101) for `A` of a W-bit signed type. -/
def selltz_int (arith : Bool) (W X A B : Nat) : Nat :=
  _mux W (_msign_int arith W (wcast W X)) A B

/-- `sellt(X, Y, A, B)` (header line 107) for operands of a W-bit signed type. -/
def sellt_int (arith : Bool) (W X Y A B : Nat) : Nat :=
  selltz_int arith W (wsub W X Y) A B

/-! ## The procedures of `test.c` (lines 18 to 36)

The state is the global `int i`, kept as its 32-bit pattern; what `body`
prints is not modelled. -/

namespace Test

/-- `void init_func() { i = 0; }`. -/
def init_func (_i : Nat) : Nat := 0

/-- `void expr_func() { i++; }`. -/
def expr_func (i : Nat) : Nat := wadd INT_BITS i 1

/-- `unsigned int cond() { return sellt(i, 10, 1, 0); }`. -/
def cond (arith : Bool) (i : Nat) : Nat × Nat :=
  (wcast UINT_BITS (sellt_int arith INT_BITS i 10 1 0), i)

/-- `void body() { printf("%i, ", i++); return; }`. -/
def body (i : Nat) : Nat := wadd INT_BITS i 1

end Test

/-! ## Bookkeeping on runs -/

/-- The state in which a `while` loop makes its condition check number `j`
(counting from 0) when started in state `s`, every earlier check having
succeeded. -/
def whileState {σ : Type} (cond : σ → Nat × σ) (f : σ → σ) : Nat → σ → σ
  | 0, s => s
  | j + 1, s => whileState cond f j (f (cond s).2)

/-- The state in which a `for` loop makes its condition check number `j`
(counting from 0) when the initializer has left state `s`. -/
def forState {σ : Type} (cond : σ → Nat × σ) (step : σ → σ) (body : σ → σ) :
    Nat → σ → σ
  | 0, s => s
  | j + 1, s => forState cond step body j (step (body (cond s).2))

/-- The call sequence with every condition call made twice. -/
def doubleCond : List Call → List Call
  | [] => []
  | Call.cond :: t => Call.cond :: Call.cond :: doubleCond t
  | Call.init :: t => Call.init :: doubleCond t
  | Call.step :: t => Call.step :: doubleCond t
  | Call.body :: t => Call.body :: doubleCond t

/-- A run with every condition call of its trace made twice. -/
def doubleRun {σ : Type} (r : Run σ) : Run σ := ⟨doubleCond r.trace, r.state⟩

/-- Whether a call sequence has two condition calls in a row. -/
def condTwice : List Call → Bool
  | Call.cond :: Call.cond :: _ => true
  | _ :: t => condTwice t
  | [] => false

/-- Whether the integer `d` is representable in a W-bit signed type. -/
def fitsSigned (W : Nat) (d : Int) : Prop :=
  -(2 : Int) ^ (W - 1) ≤ d ∧ d < (2 : Int) ^ (W - 1)

/-! ## Lemmas on the machine integers -/

theorem wcast_of_lt {W X : Nat} (h : X < 2 ^ W) : wcast W X = X :=
  Nat.mod_eq_of_lt h

theorem wcast_lt (W X : Nat) : wcast W X < 2 ^ W :=
  Nat.mod_lt _ (Nat.two_pow_pos W)

theorem wneg_zero (W : Nat) : wneg W 0 = 0 := by
  simp [wneg]

theorem wneg_one {W : Nat} (hW : 1 ≤ W) : wneg W 1 = allOnes W := by
  have h2 : 2 ≤ 2 ^ W := by
    calc 2 = 2 ^ 1 := by norm_num
      _ ≤ 2 ^ W := Nat.pow_le_pow_right (by norm_num) hW
  unfold wneg allOnes
  rw [Nat.mod_eq_of_lt (show 1 < 2 ^ W by omega)]
  exact Nat.mod_eq_of_lt (by omega)

theorem wneg_lt (W X : Nat) : wneg W X < 2 ^ W :=
  Nat.mod_lt _ (Nat.two_pow_pos W)

theorem two_pow_pred_double {W : Nat} (hW : 1 ≤ W) : 2 ^ W = 2 * 2 ^ (W - 1) := by
  obtain ⟨k, rfl⟩ : ∃ k, W = k + 1 := ⟨W - 1, by omega⟩
  simp [pow_succ, Nat.mul_comm]

theorem allOnes_pos {W : Nat} (hW : 1 ≤ W) : 0 < allOnes W := by
  have h := two_pow_pred_double hW
  have hp : 0 < 2 ^ (W - 1) := Nat.two_pow_pos _
  unfold allOnes
  omega

theorem allOnes_lt (W : Nat) : allOnes W < 2 ^ W := by
  have hp : 0 < 2 ^ W := Nat.two_pow_pos _
  unfold allOnes
  omega

/-- The logical shift by `W - 1` leaves exactly the top bit. -/
theorem shiftRight_top_low {W X : Nat} (h : X < 2 ^ (W - 1)) : X >>> (W - 1) = 0 := by
  rw [Nat.shiftRight_eq_div_pow]
  exact Nat.div_eq_of_lt h

theorem shiftRight_top_high {W X : Nat} (hW : 1 ≤ W) (hX : X < 2 ^ W)
    (h : 2 ^ (W - 1) ≤ X) : X >>> (W - 1) = 1 := by
  rw [Nat.shiftRight_eq_div_pow]
  have hd := two_pow_pred_double hW
  have hp : 0 < 2 ^ (W - 1) := Nat.two_pow_pos _
  apply Nat.div_eq_of_lt_le
  · simpa using h
  · omega

theorem _msign_low {W X : Nat} (h : X < 2 ^ (W - 1)) : _msign W X = 0 := by
  unfold _msign
  rw [shiftRight_top_low h, wneg_zero]

theorem _msign_high {W X : Nat} (hW : 1 ≤ W) (hX : X < 2 ^ W)
    (h : 2 ^ (W - 1) ≤ X) : _msign W X = allOnes W := by
  unfold _msign
  rw [shiftRight_top_high hW hX h, wneg_one hW]

theorem toSigned_neg_iff {W X : Nat} (hX : X < 2 ^ W) :
    toSigned W X < 0 ↔ 2 ^ (W - 1) ≤ X := by
  unfold toSigned
  have hX' : (X : Int) < (2 : Int) ^ W := by exact_mod_cast hX
  split_ifs with h
  · constructor
    · intro hn
      have : (0 : Int) ≤ (X : Int) := Int.natCast_nonneg X
      omega
    · intro hge
      omega
  · constructor
    · intro _
      omega
    · intro _
      omega

/-! ## The multiplexer on valid masks -/

theorem _mux_zero (W A B : Nat) : _mux W 0 A B = B := by
  simp [_mux, wcast]

theorem _mux_allOnes {W A B : Nat} (hA : A < 2 ^ W) (hB : B < 2 ^ W) :
    _mux W (allOnes W) A B = A := by
  unfold _mux
  rw [wcast_of_lt (allOnes_lt W)]
  unfold allOnes
  rw [Nat.and_pow_two_sub_one_eq_mod, Nat.mod_eq_of_lt (Nat.xor_lt_two_pow hA hB)]
  exact Nat.xor_cancel_right B A

/-! ## The nonzero mask -/

/-- For nonzero `X` the top bit of `X | -X` is set: it is the top bit of `X`
or, when `X` is below `2 ^ (W - 1)`, that of `2 ^ W - X`. -/
theorem top_le_or_wneg {W X : Nat} (hW : 1 ≤ W) (hX : X < 2 ^ W) (h0 : X ≠ 0) :
    2 ^ (W - 1) ≤ X ||| wneg W X := by
  have hd := two_pow_pred_double hW
  apply Nat.testBit_implies_ge
  rw [Nat.testBit_or, Bool.or_eq_true]
  by_cases hlow : X < 2 ^ (W - 1)
  · right
    have hn : wneg W X = 2 ^ W - X := by
      unfold wneg
      rw [Nat.mod_eq_of_lt hX]
      exact Nat.mod_eq_of_lt (by omega)
    rw [hn, Nat.testBit_to_div_mod]
    have hq : (2 ^ W - X) / 2 ^ (W - 1) = 1 := by
      apply Nat.div_eq_of_lt_le
      · simp only [Nat.one_mul]; omega
      · omega
    simp [hq]
  · left
    rw [Nat.testBit_to_div_mod]
    have hq : X / 2 ^ (W - 1) = 1 := by
      apply Nat.div_eq_of_lt_le
      · simp only [Nat.one_mul]; omega
      · omega
    simp [hq]

theorem _mnez_zero (W : Nat) : _mnez W 0 = 0 := by
  unfold _mnez
  rw [wneg_zero]
  exact _msign_low (by simp [wcast, Nat.two_pow_pos])

theorem _mnez_nonzero {W X : Nat} (hW : 1 ≤ W) (hX : X < 2 ^ W) (h0 : X ≠ 0) :
    _mnez W X = allOnes W := by
  unfold _mnez
  have hlt : X ||| wneg W X < 2 ^ W := Nat.or_lt_two_pow hX (wneg_lt W X)
  rw [wcast_of_lt hlt]
  exact _msign_high hW hlt (top_le_or_wneg hW hX h0)

theorem _mnez_eq {W X : Nat} (hW : 1 ≤ W) (hX : X < 2 ^ W) :
    _mnez W X = if X = 0 then 0 else allOnes W := by
  split_ifs with h
  · rw [h, _mnez_zero]
  · exact _mnez_nonzero hW hX h

/-! ## Claims on the primitives -/

/-- C1: for every width `W` (so for every `W ≥ 1`), every W-bit mask `M` that
is all-zero or all-ones and all W-bit `A`, `B`, the XOR multiplexer
`_mux(M, A, B) = ((A ^ B) & M) ^ B` returns `A` when `M` is all-ones and `B`
when `M` is all-zero. -/
theorem mux_selects (W M A B : Nat) (hA : A < 2 ^ W) (hB : B < 2 ^ W)
    (hM : M = 0 ∨ M = allOnes W) :
    _mux W M A B = ((A ^^^ B) &&& M) ^^^ B ∧
      (M = allOnes W → _mux W M A B = A) ∧ (M = 0 → _mux W M A B = B) := by
  have hMlt : M < 2 ^ W := by
    rcases hM with h | h
    · rw [h]; exact Nat.two_pow_pos W
    · rw [h]; exact allOnes_lt W
  refine ⟨by unfold _mux; rw [wcast_of_lt hMlt], ?_, ?_⟩
  · intro h
    rw [h]
    exact _mux_allOnes hA hB
  · intro h
    rw [h]
    exact _mux_zero W A B

theorem mux_selects_witness :
    _mux 8 255 90 60 = ((90 ^^^ 60) &&& 255) ^^^ 60 ∧
      (255 = allOnes 8 → _mux 8 255 90 60 = 90) ∧ (255 = 0 → _mux 8 255 90 60 = 60) :=
  mux_selects 8 255 90 60 (by decide) (by decide) (Or.inr (by decide))

/-- C2: for every width `W ≥ 1` and every W-bit `X`, the nonzero mask
`_mnez(X) = _msign(X | -X)` is all-ones when `X ≠ 0` and zero when `X = 0`;
in particular it is zero at `0` and all-ones at `2 ^ (W - 1)`, the minimum
signed value. -/
theorem mnez_correct (W X : Nat) (hW : 1 ≤ W) (hX : X < 2 ^ W) :
    _mnez W X = _msign W (X ||| wneg W X) ∧
      (X ≠ 0 → _mnez W X = allOnes W) ∧ (X = 0 → _mnez W X = 0) ∧
      _mnez W 0 = 0 ∧ _mnez W (2 ^ (W - 1)) = allOnes W := by
  have hd := two_pow_pred_double hW
  have hp : 0 < 2 ^ (W - 1) := Nat.two_pow_pos _
  have hlt : X ||| wneg W X < 2 ^ W := Nat.or_lt_two_pow hX (wneg_lt W X)
  refine ⟨by unfold _mnez; rw [wcast_of_lt hlt], fun h => _mnez_nonzero hW hX h, fun h => by rw [h, _mnez_zero],
    _mnez_zero W, _mnez_nonzero hW (by omega) (by omega)⟩

theorem mnez_correct_witness :
    _mnez 8 5 = _msign 8 (5 ||| wneg 8 5) ∧
      (5 ≠ 0 → _mnez 8 5 = allOnes 8) ∧ (5 = 0 → _mnez 8 5 = 0) ∧
      _mnez 8 0 = 0 ∧ _mnez 8 (2 ^ (8 - 1)) = allOnes 8 :=
  mnez_correct 8 5 (by decide) (by decide)

/-- C3: for every width `W ≥ 1` and every W-bit `X`, the sign mask
`_msign(X) = -(X >> (W-1))` (logical shift, negation modulo `2 ^ W`) is the
all-ones value exactly when the two's-complement reading of `X` is negative,
and zero otherwise. -/
theorem msign_correct (W X : Nat) (hW : 1 ≤ W) (hX : X < 2 ^ W) :
    _msign W X = wneg W (X >>> (W - 1)) ∧
      (_msign W X = allOnes W ↔ toSigned W X < 0) ∧
      (¬ toSigned W X < 0 → _msign W X = 0) := by
  refine ⟨rfl, ?_, ?_⟩
  · rw [toSigned_neg_iff hX]
    constructor
    · intro h
      by_contra hlow
      rw [_msign_low (Nat.lt_of_not_le hlow)] at h
      have := allOnes_pos hW
      omega
    · exact _msign_high hW hX
  · rw [toSigned_neg_iff hX]
    intro h
    exact _msign_low (Nat.lt_of_not_le h)

theorem msign_correct_witness :
    _msign 8 200 = wneg 8 (200 >>> (8 - 1)) ∧
      (_msign 8 200 = allOnes 8 ↔ toSigned 8 200 < 0) ∧
      (¬ toSigned 8 200 < 0 → _msign 8 200 = 0) :=
  msign_correct 8 200 (by decide) (by decide)

/-! ## The selects -/

theorem selnez_eq {W X A B : Nat} (hW : 1 ≤ W) (hA : A < 2 ^ W) (hB : B < 2 ^ W) :
    selnez W X A B = if wcast W X = 0 then B else A := by
  unfold selnez
  rw [_mnez_eq hW (wcast_lt W X)]
  split_ifs with h
  · exact _mux_zero W A B
  · exact _mux_allOnes hA hB

theorem selltz_eq {W X A B : Nat} (hW : 1 ≤ W) (hA : A < 2 ^ W) (hB : B < 2 ^ W) :
    selltz W X A B = if 2 ^ (W - 1) ≤ wcast W X then A else B := by
  unfold selltz
  split_ifs with h
  · rw [_msign_high hW (wcast_lt W X) h]
    exact _mux_allOnes hA hB
  · rw [_msign_low (Nat.lt_of_not_le h)]
    exact _mux_zero W A B

/-- The code of `seleq` hands `A` and `B` to `selnez` unswapped, so it yields
`A` exactly when the operands differ. -/
theorem seleq_eq {W X Y A B : Nat} (hW : 1 ≤ W) (hX : X < 2 ^ W) (hY : Y < 2 ^ W)
    (hA : A < 2 ^ W) (hB : B < 2 ^ W) :
    seleq W X Y A B = if X = Y then B else A := by
  unfold seleq
  rw [selnez_eq hW hA hB, wcast_of_lt (Nat.xor_lt_two_pow hX hY)]
  by_cases h : X = Y
  · simp [h]
  · have hne : X ^^^ Y ≠ 0 := fun h0 => h (Nat.xor_eq_zero.mp h0)
    simp [h, hne]

/-- A condition value, being an `unsigned int`, survives the widening to an
address-sized integer. -/
theorem wcast_widen {P c : Nat} (hP : UINT_BITS ≤ P) (hc : c < 2 ^ UINT_BITS) :
    wcast P c = c :=
  wcast_of_lt (Nat.lt_of_lt_of_le hc (Nat.pow_le_pow_right (by norm_num) hP))

theorem selnez_widen {P c A B : Nat} (hP : UINT_BITS ≤ P) (hc : c < 2 ^ UINT_BITS)
    (hA : A < 2 ^ P) (hB : B < 2 ^ P) :
    selnez P c A B = if c = 0 then B else A := by
  have hP1 : 1 ≤ P := Nat.le_trans (by decide) hP
  rw [selnez_eq hP1 hA hB, wcast_widen hP hc]

/-! ## Claim on the conditional combinator -/

/-- C4: for every 32-bit condition value `c` and all procedure addresses `cs`
and `ce`, `branchless_if(c, cs, ce)` makes exactly one indirect call, to the
address `selnez` selects, which is `ce` when `c = 0` and `cs` when `c ≠ 0`;
so with procedures at both addresses only the selected one runs and only its
address is added to the invoked addresses. -/
theorem branchless_if_invokes_selected {σ : Type} (P : Nat)
    (procs : Nat → Option (σ → σ)) (c cs ce : Nat) (t : List Nat × σ)
    (hP : UINT_BITS ≤ P) (hc : c < 2 ^ UINT_BITS) (hcs : cs < 2 ^ P) (hce : ce < 2 ^ P) :
    (c = 0 → selnez P c cs ce = ce) ∧ (c ≠ 0 → selnez P c cs ce = cs) ∧
      branchless_if P procs c cs ce t = invoke procs (if c = 0 then ce else cs) t ∧
      (∀ pcs pce, procs cs = some pcs → procs ce = some pce →
        branchless_if P procs c cs ce t =
          some (t.1 ++ [if c = 0 then ce else cs], (if c = 0 then pce else pcs) t.2)) := by
  have hsel := selnez_widen hP hc hcs hce
  refine ⟨fun h => by rw [hsel, if_pos h], fun h => by rw [hsel, if_neg h],
    by unfold branchless_if; rw [hsel], ?_⟩
  intro pcs pce h1 h2
  unfold branchless_if invoke
  rw [hsel]
  by_cases h : c = 0
  · simp [h, h2]
  · simp [h, h1]

theorem branchless_if_invokes_selected_witness :
    selnez 32 7 64 96 = 64 ∧
      branchless_if 32 procs2 7 64 96 ([], 5) = some ([64], 6) ∧
      branchless_if 32 procs2 0 64 96 ([], 5) = some ([96], 0) :=
  ⟨(branchless_if_invokes_selected 32 procs2 7 64 96 ([], 5) (by decide) (by decide)
      (by decide) (by decide)).2.1 (by decide),
    (branchless_if_invokes_selected 32 procs2 7 64 96 ([], 5) (by decide) (by decide)
      (by decide) (by decide)).2.2.2 bump reset rfl rfl,
    (branchless_if_invokes_selected 32 procs2 0 64 96 ([], 5) (by decide) (by decide)
      (by decide) (by decide)).2.2.2 bump reset rfl rfl⟩

/-! ## The iterative combinators against the native loops -/

theorem callCond_lt {σ : Type} (cond : σ → Nat × σ) (r : Run σ) :
    (callCond cond r).1 < 2 ^ UINT_BITS :=
  wcast_lt UINT_BITS _

/-- When both copies of the argument have the same value the two-operand
expansion is the plain macro. -/
theorem selnez2_self (W X A B : Nat) : selnez2 W X X A B = selnez W X A B := rfl

theorem native_do_while_eq_while {σ : Type} (cond : σ → Nat × σ) (f : σ → σ) :
    ∀ (fuel : Nat) (r : Run σ),
      native_do_while cond f fuel r = native_while cond f fuel (callProc Call.body f r) := by
  intro fuel
  induction fuel with
  | zero => intro r; rfl
  | succ n ih =>
    intro r
    simp only [native_do_while, native_while]
    by_cases hc : (callCond cond (callProc Call.body f r)).1 = 0
    · simp [hc]
    · simp [hc, ih]

/-! ### Conditions that leave the state alone

For such a condition the two calls of one check return the same value, and
the combinators follow the native loops with every condition call doubled. -/

theorem doubleCond_append (t u : List Call) :
    doubleCond (t ++ u) = doubleCond t ++ doubleCond u := by
  induction t with
  | nil => rfl
  | cons k t ih => cases k <;> simp [doubleCond, ih]

theorem doubleRun_callProc {σ : Type} (k : Call) (hk : k ≠ Call.cond) (p : σ → σ)
    (r : Run σ) : callProc k p (doubleRun r) = doubleRun (callProc k p r) := by
  cases k
  · simp [callProc, doubleRun, doubleCond_append, doubleCond]
  · exact absurd rfl hk
  · simp [callProc, doubleRun, doubleCond_append, doubleCond]
  · simp [callProc, doubleRun, doubleCond_append, doubleCond]

theorem selectByCond_doubleRun {σ : Type} {P : Nat} (ltr : Bool) (hP : UINT_BITS ≤ P)
    (cond : σ → Nat × σ) (hpure : ∀ s, (cond s).2 = s) {a b : Nat} (ha : a < 2 ^ P)
    (hb : b < 2 ^ P) (r : Run σ) :
    selectByCond ltr P cond a b (doubleRun r) =
      (if (callCond cond r).1 = 0 then b else a, doubleRun (callCond cond r).2) := by
  have hsel : selnez2 P (callCond cond r).1 (callCond cond r).1 a b =
      if (callCond cond r).1 = 0 then b else a := by
    rw [selnez2_self]
    exact selnez_widen hP (callCond_lt cond r) ha hb
  have hval : ∀ r0 : Run σ, r0.state = r.state → (callCond cond r0).1 = (callCond cond r).1 := by
    intro r0 h0
    simp [callCond, h0]
  simp only [selectByCond]
  rw [hval (doubleRun r) rfl,
    hval (callCond cond (doubleRun r)).2 (by simp [callCond, doubleRun, hpure])]
  simp only [ite_self, hsel]
  congr 1
  simp [callCond, doubleRun, doubleCond_append, doubleCond, hpure]

theorem branchless_do_while_pure {σ : Type} {P : Nat} {L : CodeAddrs} (ltr : Bool)
    (hP : UINT_BITS ≤ P) (hL : L.valid P) (cond : σ → Nat × σ) (f : σ → σ)
    (hpure : ∀ s, (cond s).2 = s) :
    ∀ (fuel : Nat) (r : Run σ),
      branchless_do_while ltr P L cond f fuel (doubleRun r) =
        (native_do_while cond f fuel r).map doubleRun := by
  intro fuel
  induction fuel with
  | zero => intro r; rfl
  | succ n ih =>
    intro r
    have hne : L.end_while ≠ L.branchless_do_while := fun h => hL.2.2.2.2.1 h.symm
    simp only [branchless_do_while, native_do_while]
    rw [doubleRun_callProc Call.body (by decide),
      selectByCond_doubleRun ltr hP cond hpure hL.1 hL.2.1]
    by_cases hc : (callCond cond (callProc Call.body f r)).1 = 0
    · simp [hc, hne, end_while]
    · simp [hc, ih]

theorem branchless_while_pure {σ : Type} {P : Nat} {L : CodeAddrs} (ltr : Bool)
    (hP : UINT_BITS ≤ P) (hL : L.valid P) (cond : σ → Nat × σ) (f : σ → σ)
    (hpure : ∀ s, (cond s).2 = s) (fuel : Nat) (r : Run σ) :
    branchless_while ltr P L cond f fuel (doubleRun r) =
      (native_while cond f (fuel + 1) r).map doubleRun := by
  have hne : L.end_while ≠ L.branchless_do_while := fun h => hL.2.2.2.2.1 h.symm
  simp only [branchless_while, native_while]
  rw [selectByCond_doubleRun ltr hP cond hpure hL.1 hL.2.1]
  by_cases hc : (callCond cond r).1 = 0
  · simp [hc, hne, end_while]
  · simp [hc, branchless_do_while_pure ltr hP hL cond f hpure, native_do_while_eq_while]

theorem branchless_continue_for_pure {σ : Type} {P : Nat} {L : CodeAddrs} (ltr : Bool)
    (hP : UINT_BITS ≤ P) (hL : L.valid P) (cond : σ → Nat × σ) (step : σ → σ)
    (body : σ → σ) (hpure : ∀ s, (cond s).2 = s) :
    ∀ (fuel : Nat) (r : Run σ),
      branchless_continue_for ltr P L cond step body fuel (doubleRun r) =
        (native_for_loop cond step body fuel
          (callProc Call.step step (callProc Call.body body r))).map doubleRun := by
  intro fuel
  induction fuel with
  | zero => intro r; rfl
  | succ n ih =>
    intro r
    have hne : L.end_for ≠ L.branchless_continue_for := fun h => hL.2.2.2.2.2 h.symm
    simp only [branchless_continue_for, native_for_loop]
    rw [doubleRun_callProc Call.body (by decide), doubleRun_callProc Call.step (by decide),
      selectByCond_doubleRun ltr hP cond hpure hL.2.2.1 hL.2.2.2.1]
    by_cases hc :
        (callCond cond (callProc Call.step step (callProc Call.body body r))).1 = 0
    · simp [hc, hne, end_for]
    · simp [hc, ih]

theorem branchless_for_pure {σ : Type} {P : Nat} {L : CodeAddrs} (ltr : Bool)
    (hP : UINT_BITS ≤ P) (hL : L.valid P) (init : σ → σ) (cond : σ → Nat × σ)
    (step : σ → σ) (body : σ → σ) (hpure : ∀ s, (cond s).2 = s) (fuel : Nat)
    (r : Run σ) :
    branchless_for ltr P L init cond step body fuel (doubleRun r) =
      (native_for init cond step body (fuel + 1) r).map doubleRun := by
  have hne : L.end_for ≠ L.branchless_continue_for := fun h => hL.2.2.2.2.2 h.symm
  simp only [branchless_for, native_for, native_for_loop]
  rw [doubleRun_callProc Call.init (by decide),
    selectByCond_doubleRun ltr hP cond hpure hL.2.2.1 hL.2.2.2.1]
  by_cases hc : (callCond cond (callProc Call.init init r)).1 = 0
  · simp [hc, hne, end_for]
  · simp [hc, branchless_continue_for_pure ltr hP hL cond step body hpure]

/-! More fuel never changes the result of a native loop that has returned. -/

theorem native_while_mono {σ : Type} (cond : σ → Nat × σ) (f : σ → σ) :
    ∀ (n : Nat) (r r' : Run σ), native_while cond f n r = some r' →
      ∀ k, n ≤ k → native_while cond f k r = some r' := by
  intro n
  induction n with
  | zero => intro r r' h; simp [native_while] at h
  | succ n ih =>
    intro r r' h k hk
    obtain ⟨m, rfl⟩ : ∃ m, k = m + 1 := ⟨k - 1, by omega⟩
    simp only [native_while] at h ⊢
    by_cases hc : (callCond cond r).1 = 0
    · simpa [hc] using h
    · simp only [hc, ne_eq, not_false_eq_true, if_true] at h ⊢
      exact ih _ _ h m (by omega)

theorem native_do_while_mono {σ : Type} (cond : σ → Nat × σ) (f : σ → σ)
    (n : Nat) (r r' : Run σ) (h : native_do_while cond f n r = some r')
    (k : Nat) (hk : n ≤ k) : native_do_while cond f k r = some r' := by
  rw [native_do_while_eq_while] at h ⊢
  exact native_while_mono cond f n _ _ h k hk

theorem native_for_loop_mono {σ : Type} (cond : σ → Nat × σ) (step : σ → σ)
    (body : σ → σ) :
    ∀ (n : Nat) (r r' : Run σ), native_for_loop cond step body n r = some r' →
      ∀ k, n ≤ k → native_for_loop cond step body k r = some r' := by
  intro n
  induction n with
  | zero => intro r r' h; simp [native_for_loop] at h
  | succ n ih =>
    intro r r' h k hk
    obtain ⟨m, rfl⟩ : ∃ m, k = m + 1 := ⟨k - 1, by omega⟩
    simp only [native_for_loop] at h ⊢
    by_cases hc : (callCond cond r).1 = 0
    · simpa [hc] using h
    · simp only [hc, ne_eq, not_false_eq_true, if_true] at h ⊢
      exact ih _ _ h m (by omega)

/-! The order of the calls a native loop makes. -/

theorem native_while_trace {σ : Type} (cond : σ → Nat × σ) (f : σ → σ) :
    ∀ (n : Nat) (r r' : Run σ), native_while cond f n r = some r' →
      ∃ m, r'.trace = r.trace ++ Call.cond :: repeatBlock [Call.body, Call.cond] m := by
  intro n
  induction n with
  | zero => intro r r' h; simp [native_while] at h
  | succ n ih =>
    intro r r' h
    simp only [native_while] at h
    by_cases hc : (callCond cond r).1 = 0
    · simp only [hc, ne_eq, not_true_eq_false, if_false, Option.some.injEq] at h
      exact ⟨0, by rw [← h]; rfl⟩
    · simp only [hc, ne_eq, not_false_eq_true, if_true] at h
      obtain ⟨m, hm⟩ := ih _ _ h
      exact ⟨m + 1, by rw [hm]; simp [callProc, callCond, repeatBlock]⟩

theorem native_for_loop_trace {σ : Type} (cond : σ → Nat × σ) (step : σ → σ)
    (body : σ → σ) :
    ∀ (n : Nat) (r r' : Run σ), native_for_loop cond step body n r = some r' →
      ∃ m, r'.trace =
        r.trace ++ Call.cond :: repeatBlock [Call.body, Call.step, Call.cond] m := by
  intro n
  induction n with
  | zero => intro r r' h; simp [native_for_loop] at h
  | succ n ih =>
    intro r r' h
    simp only [native_for_loop] at h
    by_cases hc : (callCond cond r).1 = 0
    · simp only [hc, ne_eq, not_true_eq_false, if_false, Option.some.injEq] at h
      exact ⟨0, by rw [← h]; rfl⟩
    · simp only [hc, ne_eq, not_false_eq_true, if_true] at h
      obtain ⟨m, hm⟩ := ih _ _ h
      exact ⟨m + 1, by rw [hm]; simp [callProc, callCond, repeatBlock]⟩

/-! ## Claims on the iterative combinators

Each check of a combinator calls the condition procedure twice, where the
native loop calls it once.  With a condition that has a side effect the two
runs part: below, `take` counts down from 4 and `work` counts the executions
of the body. -/

/-- C5: from the state `(4, 0)` the native loop `while (take()) { work(); }`
makes 5 condition calls and 4 body calls and ends in `(0, 4)`, while
`branchless_while(take, work)`, in either order of evaluation, makes 6
condition calls, two at each check, and 2 body calls and ends in `(0, 2)`. -/
theorem branchless_while_departs_from_native :
    native_while take work 5 ⟨[], (4, 0)⟩ =
        some ⟨[Call.cond, Call.body, Call.cond, Call.body, Call.cond, Call.body,
          Call.cond, Call.body, Call.cond], (0, 4)⟩ ∧
      branchless_while true 32 layout32 take work 5 ⟨[], (4, 0)⟩ =
        some ⟨[Call.cond, Call.cond, Call.body, Call.cond, Call.cond, Call.body,
          Call.cond, Call.cond], (0, 2)⟩ ∧
      branchless_while false 32 layout32 take work 5 ⟨[], (4, 0)⟩ =
        some ⟨[Call.cond, Call.cond, Call.body, Call.cond, Call.cond, Call.body,
          Call.cond, Call.cond], (0, 2)⟩ := by
  decide

/-- C6: from the state `(4, 0)` the native loop
`do { work(); } while (take());` makes 5 body calls and 5 condition calls and
ends in `(0, 5)`, while `branchless_do_while(take, work)`, in either order of
evaluation, makes 3 body calls and 6 condition calls, two at each check, and
ends in `(0, 3)`. -/
theorem branchless_do_while_departs_from_native :
    native_do_while take work 5 ⟨[], (4, 0)⟩ =
        some ⟨[Call.body, Call.cond, Call.body, Call.cond, Call.body, Call.cond,
          Call.body, Call.cond, Call.body, Call.cond], (0, 5)⟩ ∧
      branchless_do_while true 32 layout32 take work 5 ⟨[], (4, 0)⟩ =
        some ⟨[Call.body, Call.cond, Call.cond, Call.body, Call.cond, Call.cond,
          Call.body, Call.cond, Call.cond], (0, 3)⟩ ∧
      branchless_do_while false 32 layout32 take work 5 ⟨[], (4, 0)⟩ =
        some ⟨[Call.body, Call.cond, Call.cond, Call.body, Call.cond, Call.cond,
          Call.body, Call.cond, Call.cond], (0, 3)⟩ := by
  decide

/-- C7: with `start4` as initializer and `work` as both step and body, the
native loop `for (start4(); take(); work()) { work(); }` runs 4 iterations
and ends in `(0, 8)`, while `branchless_for(start4, take, work, work)`, in
either order of evaluation, calls the condition twice at each check, runs 2
iterations and ends in `(0, 4)`. -/
theorem branchless_for_departs_from_native :
    native_for start4 take work work 5 ⟨[], (9, 9)⟩ =
        some ⟨[Call.init, Call.cond, Call.body, Call.step, Call.cond, Call.body,
          Call.step, Call.cond, Call.body, Call.step, Call.cond, Call.body, Call.step,
          Call.cond], (0, 8)⟩ ∧
      branchless_for true 32 layout32 start4 take work work 5 ⟨[], (9, 9)⟩ =
        some ⟨[Call.init, Call.cond, Call.cond, Call.body, Call.step, Call.cond,
          Call.cond, Call.body, Call.step, Call.cond, Call.cond], (0, 4)⟩ ∧
      branchless_for false 32 layout32 start4 take work work 5 ⟨[], (9, 9)⟩ =
        some ⟨[Call.init, Call.cond, Call.cond, Call.body, Call.step, Call.cond,
          Call.cond, Call.body, Call.step, Call.cond, Call.cond], (0, 4)⟩ := by
  decide

/-! ## The comparator adapters at the inputs where they leave their comments -/

/-- C8: `seleq(5, 5, 77, 33)` on 32-bit operands is `33`, the value for unequal
operands, and `seleq(5, 6, 77, 33)` is `77`, the value for equal operands:
the adapter commented `(X == Y) ? A : B` computes `(X != Y) ? A : B`. -/
theorem seleq_at_equal_operands :
    seleq 32 5 5 77 33 = 33 ∧ seleq 32 5 6 77 33 = 77 := by
  decide

/-- C9: `selne(5, 5, 77, 33)` on 32-bit operands is `77`, the value for unequal
operands, and `selne(5, 6, 77, 33)` is `33`, the value for equal operands:
the adapter commented `(X != Y) ? A : B` computes `(X == Y) ? A : B`. -/
theorem selne_at_equal_operands :
    selne 32 5 5 77 33 = 77 ∧ selne 32 5 6 77 33 = 33 := by
  decide

/-- C10: on 32-bit operands `sellt(0x80000000, 1, 77, 33)` is `33` although
`0x80000000` read as a signed integer, `-2 ^ 31`, is below `1`: the
subtraction wraps to `0x7FFFFFFF`, whose sign bit is clear. -/
theorem sellt_at_min_operand :
    sellt 32 2147483648 1 77 33 = 33 ∧ wsub 32 2147483648 1 = 2147483647 ∧
      toSigned 32 2147483648 < toSigned 32 1 := by
  decide

/-! ## Claims on the unary selects and on the multiplexer strategies -/

/-- C11: for every width `W` and all W-bit `X`, `A`, `B`, `selnez(X, A, B)` is
`A` when `X ≠ 0` and `B` when `X = 0`, and `selltz(X, A, B)` is `A` when the
signed reading of `X` is negative and `B` otherwise. -/
theorem unary_selects_correct (W X A B : Nat) (hX : X < 2 ^ W) (hA : A < 2 ^ W)
    (hB : B < 2 ^ W) :
    (X ≠ 0 → selnez W X A B = A) ∧ (X = 0 → selnez W X A B = B) ∧
      (toSigned W X < 0 → selltz W X A B = A) ∧
      (¬ toSigned W X < 0 → selltz W X A B = B) := by
  rcases Nat.eq_zero_or_pos W with h0 | hpos
  · subst h0
    have hX0 : X = 0 := by simpa using hX
    have hA0 : A = 0 := by simpa using hA
    have hB0 : B = 0 := by simpa using hB
    subst hX0 hA0 hB0
    decide
  · have hsel := @selnez_eq W X A B hpos hA hB
    have hltz := @selltz_eq W X A B hpos hA hB
    rw [wcast_of_lt hX] at hsel hltz
    rw [toSigned_neg_iff hX]
    refine ⟨fun h => by rw [hsel, if_neg h], fun h => by rw [hsel, if_pos h],
      fun h => by rw [hltz, if_pos h], fun h => by rw [hltz, if_neg h]⟩

theorem unary_selects_correct_witness :
    (200 ≠ 0 → selnez 8 200 77 33 = 77) ∧ (200 = 0 → selnez 8 200 77 33 = 33) ∧
      (toSigned 8 200 < 0 → selltz 8 200 77 33 = 77) ∧
      (¬ toSigned 8 200 < 0 → selltz 8 200 77 33 = 33) :=
  unary_selects_correct 8 200 77 33 (by decide) (by decide) (by decide)

theorem wsub_lt (W X Y : Nat) : wsub W X Y < 2 ^ W :=
  Nat.mod_lt _ (Nat.two_pow_pos W)

/-- C15, at a concrete input: on 8-bit operands `_mux(255, 1, 0)` has type
`int`, so `_mnez` of it is computed on a signed operand and is `1` under an
arithmetic shift and `0xFFFFFFFF` under a logical one; neither is the mask
`255`. -/
theorem mnez_of_mux_narrow_is_not_mask :
    _mnez_of_mux true 8 255 1 0 = 1 ∧ _mnez_of_mux false 8 255 1 0 = 4294967295 ∧
      _mnez_of_mux true 8 255 1 0 ≠ 255 ∧ _mnez_of_mux false 8 255 1 0 ≠ 255 := by
  decide

/-- C15, as amended: for every width `W` at least that of `int` and every
W-bit mask `M` that is all-zero or all-ones, on operands of the W-bit
unsigned type the mask derived again from the multiplexer's output is `M`:
`_mnez(_mux(M, 1, 0)) = M`. -/
theorem mnez_mux_roundtrip (arith : Bool) (W M : Nat) (hW : INT_BITS ≤ W)
    (hM : M = 0 ∨ M = allOnes W) :
    _mnez_of_mux arith W M 1 0 = M := by
  have hW1 : 1 ≤ W := Nat.le_trans (by decide) hW
  have hd := two_pow_pred_double hW1
  have hp : 0 < 2 ^ (W - 1) := Nat.two_pow_pos _
  have h1 : 1 < 2 ^ W := by omega
  unfold _mnez_of_mux
  rw [if_neg (Nat.not_lt.mpr hW)]
  rcases hM with h | h
  · rw [h, _mux_zero, _mnez_zero]
  · rw [h, _mux_allOnes h1 (Nat.two_pow_pos W), _mnez_nonzero hW1 h1 (by decide)]

theorem mnez_mux_roundtrip_witness :
    _mnez_of_mux true 32 4294967295 1 0 = 4294967295 :=
  mnez_mux_roundtrip true 32 4294967295 (by decide) (Or.inr (by decide))

theorem testBit_eq_false_of_lt {W X i : Nat} (hX : X < 2 ^ W) (hi : W ≤ i) :
    X.testBit i = false :=
  Nat.testBit_lt_two_pow (Nat.lt_of_lt_of_le hX (Nat.pow_le_pow_right (by norm_num) hi))

theorem testBit_wnot {W M : Nat} (hM : M < 2 ^ W) (i : Nat) :
    (wnot W M).testBit i = (decide (i < W) && !M.testBit i) := by
  unfold wnot
  rw [Nat.mod_eq_of_lt hM, Nat.sub_sub, Nat.add_comm 1 M]
  exact Nat.testBit_two_pow_sub_succ hM i

theorem testBit__mux {W M A B : Nat} (hM : M < 2 ^ W) (i : Nat) :
    (_mux W M A B).testBit i = if M.testBit i then A.testBit i else B.testBit i := by
  unfold _mux
  rw [wcast_of_lt hM, Nat.testBit_xor, Nat.testBit_and, Nat.testBit_xor]
  cases M.testBit i <;> cases A.testBit i <;> cases B.testBit i <;> rfl

/-- C20: for an arbitrary W-bit selector `M` and all W-bit `A`, `B`, the XOR
multiplexer `((A ^ B) & M) ^ B` equals `(~M & B) | (M & A)`, and each of its
bits is the bit of `A` where the bit of `M` is 1 and the bit of `B` where it
is 0. -/
theorem mux_is_bitwise_select (W M A B : Nat) (hM : M < 2 ^ W) (hB : B < 2 ^ W) :
    _mux W M A B = ((A ^^^ B) &&& M) ^^^ B ∧
      _mux_or W M A B = (wnot W M &&& B) ||| (M &&& A) ∧
      _mux W M A B = _mux_or W M A B ∧
      ∀ i, (_mux W M A B).testBit i = if M.testBit i then A.testBit i else B.testBit i := by
  refine ⟨by unfold _mux; rw [wcast_of_lt hM], by unfold _mux_or; rw [wcast_of_lt hM],
    ?_, testBit__mux hM⟩
  apply Nat.eq_of_testBit_eq
  intro i
  rw [testBit__mux hM]
  unfold _mux_or
  rw [wcast_of_lt hM, Nat.testBit_or, Nat.testBit_and, Nat.testBit_and, testBit_wnot hM]
  by_cases hi : i < W
  · cases M.testBit i <;> cases A.testBit i <;> cases B.testBit i <;> simp [hi]
  · have hBi := testBit_eq_false_of_lt hB (Nat.le_of_not_lt hi)
    have hMi := testBit_eq_false_of_lt hM (Nat.le_of_not_lt hi)
    simp [hi, hBi, hMi]

theorem mux_is_bitwise_select_witness :
    _mux 8 172 90 200 = ((90 ^^^ 200) &&& 172) ^^^ 200 ∧
      _mux_or 8 172 90 200 = (wnot 8 172 &&& 200) ||| (172 &&& 90) ∧
      _mux 8 172 90 200 = _mux_or 8 172 90 200 ∧
      ∀ i, (_mux 8 172 90 200).testBit i =
        if Nat.testBit 172 i then Nat.testBit 90 i else Nat.testBit 200 i :=
  mux_is_bitwise_select 8 172 90 200 (by decide) (by decide)

/-! ## The bits of `X | -X` -/

/-- With `j` the lowest set bit of `X`, the bits of `X | (2 ^ W - X)` are
exactly those from `j` up to `W - 1`. -/
theorem testBit_or_two_pow_sub :
    ∀ (j W X : Nat), X < 2 ^ W → X.testBit j = true →
      (∀ i, i < j → X.testBit i = false) →
      ∀ i, (X ||| (2 ^ W - X)).testBit i = decide (j ≤ i ∧ i < W) := by
  intro j
  induction j with
  | zero =>
    intro W X hX hj _ i
    have hodd : X % 2 = 1 := by simpa [Nat.testBit_zero] using hj
    have hsub : 2 ^ W - X = 2 ^ W - (X - 1 + 1) := by congr 1; omega
    have hWpos : 0 < W := by
      rcases Nat.eq_zero_or_pos W with h | h
      · subst h; simp at hX; omega
      · exact h
    rw [Nat.testBit_or, hsub, Nat.testBit_two_pow_sub_succ (by omega) i]
    cases i with
    | zero => simp [hj, hWpos]
    | succ k =>
      have hhalf : (X - 1) / 2 = X / 2 := by omega
      rw [Nat.testBit_succ, Nat.testBit_succ, hhalf]
      by_cases hk : k + 1 < W
      · cases (X / 2).testBit k <;> simp [hk]
      · have hfalse := testBit_eq_false_of_lt hX (Nat.le_of_not_lt hk)
        rw [Nat.testBit_succ] at hfalse
        simp [hk, hfalse]
  | succ j ih =>
    intro W X hX hj hlow i
    have heven : X % 2 = 0 := by
      have h0 := hlow 0 (Nat.succ_pos j)
      rw [Nat.testBit_zero] at h0
      have : ¬ X % 2 = 1 := by simpa using h0
      omega
    have hXpos : 0 < X := by
      rcases Nat.eq_zero_or_pos X with h | h
      · subst h; simp at hj
      · exact h
    obtain ⟨w, rfl⟩ : ∃ w, W = w + 1 := by
      rcases Nat.eq_zero_or_pos W with h | h
      · subst h; simp at hX; omega
      · exact ⟨W - 1, by omega⟩
    have hpow : 2 ^ (w + 1) = 2 * 2 ^ w := by rw [pow_succ, Nat.mul_comm]
    have hX2 : X / 2 < 2 ^ w := by omega
    rw [Nat.testBit_or]
    cases i with
    | zero =>
      have h0 := hlow 0 (Nat.succ_pos j)
      have hsubeven : (2 ^ (w + 1) - X) % 2 = 0 := by omega
      simp [h0, Nat.testBit_zero, hsubeven]
    | succ k =>
      have hsubhalf : (2 ^ (w + 1) - X) / 2 = 2 ^ w - X / 2 := by omega
      rw [Nat.testBit_succ, Nat.testBit_succ, hsubhalf, ← Nat.testBit_or]
      rw [ih w (X / 2) hX2 (by rw [← Nat.testBit_succ]; exact hj)
        (fun i hi => by rw [← Nat.testBit_succ]; exact hlow (i + 1) (by omega)) k]
      simp

theorem wneg_of_pos {W X : Nat} (hX : X < 2 ^ W) (h0 : X ≠ 0) : wneg W X = 2 ^ W - X := by
  unfold wneg
  rw [Nat.mod_eq_of_lt hX]
  exact Nat.mod_eq_of_lt (by omega)

/-- C18: for every width `W ≥ 1` and every nonzero W-bit `X`, the value
`X | -X` has every bit from the lowest set bit `j` of `X` up to the sign bit
set and every bit below `j` clear; hence for every W-bit `X` the sign bit of
`X | -X` is clear if and only if `X = 0`. -/
theorem or_neg_fills_from_lowest_set_bit (W X : Nat) (hW : 1 ≤ W) (hX : X < 2 ^ W) :
    (X ≠ 0 → ∃ j, j < W ∧ X.testBit j = true ∧ (∀ i, i < j → X.testBit i = false) ∧
        ∀ i, (X ||| wneg W X).testBit i = decide (j ≤ i ∧ i < W)) ∧
      ((X ||| wneg W X).testBit (W - 1) = false ↔ X = 0) := by
  have hfill : X ≠ 0 → ∃ j, j < W ∧ X.testBit j = true ∧
      (∀ i, i < j → X.testBit i = false) ∧
      ∀ i, (X ||| wneg W X).testBit i = decide (j ≤ i ∧ i < W) := by
    intro h0
    have hex : ∃ i, X.testBit i = true := Nat.ne_zero_implies_bit_true h0
    have hj : X.testBit (Nat.find hex) = true := Nat.find_spec hex
    have hlow : ∀ i, i < Nat.find hex → X.testBit i = false := by
      intro i hi
      have := Nat.find_min hex hi
      simpa using this
    have hjW : Nat.find hex < W := by
      by_contra hge
      rw [testBit_eq_false_of_lt hX (Nat.le_of_not_lt hge)] at hj
      exact Bool.false_ne_true hj
    refine ⟨Nat.find hex, hjW, hj, hlow, ?_⟩
    rw [wneg_of_pos hX h0]
    exact testBit_or_two_pow_sub _ W X hX hj hlow
  refine ⟨hfill, ?_, ?_⟩
  · intro hclear
    by_contra h0
    obtain ⟨j, hjW, _, _, hbits⟩ := hfill h0
    rw [hbits (W - 1)] at hclear
    have : j ≤ W - 1 ∧ W - 1 < W := ⟨by omega, by omega⟩
    simp [this] at hclear
  · intro h0
    rw [h0, wneg_zero]
    simp

theorem or_neg_fills_from_lowest_set_bit_witness :
    (40 ≠ 0 → ∃ j, j < 8 ∧ Nat.testBit 40 j = true ∧
        (∀ i, i < j → Nat.testBit 40 i = false) ∧
        ∀ i, (40 ||| wneg 8 40).testBit i = decide (j ≤ i ∧ i < 8)) ∧
      ((40 ||| wneg 8 40).testBit (8 - 1) = false ↔ 40 = 0) :=
  or_neg_fills_from_lowest_set_bit 8 40 (by decide) (by decide)

/-! ## The ordering adapters when the subtraction does not overflow -/

theorem wsub_eq {W X Y : Nat} (hX : X < 2 ^ W) (hY : Y < 2 ^ W) :
    wsub W X Y = if X < Y then X + 2 ^ W - Y else X - Y := by
  unfold wsub
  rw [Nat.mod_eq_of_lt hX, Nat.mod_eq_of_lt hY]
  split_ifs with h
  · rw [Nat.mod_eq_of_lt (by omega)]
    omega
  · have hsum : X + (2 ^ W - Y) = X - Y + 2 ^ W := by omega
    rw [hsum, Nat.add_mod_right, Nat.mod_eq_of_lt (by omega)]

theorem toSigned_cast (W X : Nat) :
    toSigned W X =
      if X < 2 ^ (W - 1) then (X : Int) else (X : Int) - ((2 ^ W : Nat) : Int) := by
  unfold toSigned
  push_cast
  rfl

theorem fitsSigned_cast (W : Nat) (d : Int) :
    fitsSigned W d ↔ -((2 ^ (W - 1) : Nat) : Int) ≤ d ∧ d < ((2 ^ (W - 1) : Nat) : Int) := by
  unfold fitsSigned
  push_cast
  rfl

/-- The arithmetic behind the subtract-and-test-sign comparison, on a
modulus `T = 2 * H`. -/
theorem sub_sign_arith (T H X Y : Nat) (sx sy : Int) (hd : T = 2 * H) (hX : X < T)
    (hY : Y < T)
    (hsx : sx = if X < H then (X : Int) else (X : Int) - (T : Int))
    (hsy : sy = if Y < H then (Y : Int) else (Y : Int) - (T : Int))
    (hfit : -(H : Int) ≤ sx - sy ∧ sx - sy < (H : Int)) :
    H ≤ (if X < Y then X + T - Y else X - Y) ↔ sx < sy := by
  subst hsx hsy
  split_ifs at hfit ⊢ <;> omega

/-- Without signed overflow the sign bit of the wrapped difference is the
result of the signed comparison. -/
theorem wsub_sign_iff {W X Y : Nat} (hW : 1 ≤ W) (hX : X < 2 ^ W) (hY : Y < 2 ^ W)
    (hfit : fitsSigned W (toSigned W X - toSigned W Y)) :
    2 ^ (W - 1) ≤ wsub W X Y ↔ toSigned W X < toSigned W Y := by
  rw [wsub_eq hX hY]
  exact sub_sign_arith (2 ^ W) (2 ^ (W - 1)) X Y _ _ (two_pow_pred_double hW) hX hY
    (toSigned_cast W X) (toSigned_cast W Y) ((fitsSigned_cast W _).mp hfit)

theorem sellt_eq_of_fits {W X Y A B : Nat} (hW : 1 ≤ W) (hX : X < 2 ^ W)
    (hY : Y < 2 ^ W) (hA : A < 2 ^ W) (hB : B < 2 ^ W)
    (hfit : fitsSigned W (toSigned W X - toSigned W Y)) :
    sellt W X Y A B = if toSigned W X < toSigned W Y then A else B := by
  unfold sellt
  rw [selltz_eq hW hA hB, wcast_of_lt (wsub_lt W X Y)]
  by_cases h : toSigned W X < toSigned W Y
  · rw [if_pos ((wsub_sign_iff hW hX hY hfit).mpr h), if_pos h]
  · rw [if_neg (fun hc => h ((wsub_sign_iff hW hX hY hfit).mp hc)), if_neg h]

/-- C19: for every width `W`, all W-bit `X`, `Y` read as signed integers and
all W-bit `A`, `B`: when `X - Y` does not overflow the signed range, `sellt`
returns `A` iff `X < Y` and `selge` returns `A` iff `X ≥ Y`; when `Y - X` does
not overflow, `selgt` returns `A` iff `X > Y` and `selle` returns `A` iff
`X ≤ Y`; each returns `B` otherwise. -/
theorem ordering_selects_without_overflow (W X Y A B : Nat) (hX : X < 2 ^ W)
    (hY : Y < 2 ^ W) (hA : A < 2 ^ W) (hB : B < 2 ^ W) :
    (fitsSigned W (toSigned W X - toSigned W Y) →
        sellt W X Y A B = (if toSigned W X < toSigned W Y then A else B) ∧
        selge W X Y A B = (if toSigned W X ≥ toSigned W Y then A else B)) ∧
      (fitsSigned W (toSigned W Y - toSigned W X) →
        selgt W X Y A B = (if toSigned W X > toSigned W Y then A else B) ∧
        selle W X Y A B = (if toSigned W X ≤ toSigned W Y then A else B)) := by
  rcases Nat.eq_zero_or_pos W with h0 | hpos
  · subst h0
    have hX0 : X = 0 := by simpa using hX
    have hY0 : Y = 0 := by simpa using hY
    have hA0 : A = 0 := by simpa using hA
    have hB0 : B = 0 := by simpa using hB
    subst hX0 hY0 hA0 hB0
    simp only [ite_self]
    exact ⟨fun _ => ⟨by decide, by decide⟩, fun _ => ⟨by decide, by decide⟩⟩
  · constructor
    · intro hfit
      refine ⟨sellt_eq_of_fits hpos hX hY hA hB hfit, ?_⟩
      unfold selge
      rw [sellt_eq_of_fits hpos hX hY hB hA hfit]
      by_cases h : toSigned W X < toSigned W Y
      · rw [if_pos h, if_neg (by omega)]
      · rw [if_neg h, if_pos (by omega)]
    · intro hfit
      constructor
      · unfold selgt
        exact sellt_eq_of_fits hpos hY hX hA hB hfit
      · unfold selle selgt
        rw [sellt_eq_of_fits hpos hY hX hB hA hfit]
        by_cases h : toSigned W Y < toSigned W X
        · rw [if_pos h, if_neg (by omega)]
        · rw [if_neg h, if_pos (by omega)]

theorem ordering_selects_without_overflow_witness :
    (sellt 8 250 3 77 33 = (if toSigned 8 250 < toSigned 8 3 then 77 else 33) ∧
        selge 8 250 3 77 33 = (if toSigned 8 250 ≥ toSigned 8 3 then 77 else 33)) ∧
      (selgt 8 250 3 77 33 = (if toSigned 8 250 > toSigned 8 3 then 77 else 33) ∧
        selle 8 250 3 77 33 = (if toSigned 8 250 ≤ toSigned 8 3 then 77 else 33)) :=
  ⟨(ordering_selects_without_overflow 8 250 3 77 33 (by decide) (by decide) (by decide)
      (by decide)).1 (by unfold fitsSigned; decide),
    (ordering_selects_without_overflow 8 250 3 77 33 (by decide) (by decide) (by decide)
      (by decide)).2 (by unfold fitsSigned; decide)⟩

/-! ## The sign mask on a signed operand -/

theorem one_or_allOnes_sub_one {W : Nat} (hW : 1 ≤ W) :
    1 ||| (allOnes W - allOnes 1) = allOnes W := by
  have hd := two_pow_pred_double hW
  have hp : 0 < 2 ^ (W - 1) := Nat.two_pow_pos _
  have hsub : allOnes W - allOnes 1 = 2 ^ W - (1 + 1) := by
    unfold allOnes
    omega
  apply Nat.eq_of_testBit_eq
  intro i
  rw [Nat.testBit_or, hsub, Nat.testBit_two_pow_sub_succ (by omega) i]
  unfold allOnes
  rw [Nat.testBit_two_pow_sub_one]
  cases i with
  | zero => simp; omega
  | succ k => simp [Nat.testBit_succ]

theorem sar_top_high {W X : Nat} (hW : 1 ≤ W) (hX : X < 2 ^ W) (h : 2 ^ (W - 1) ≤ X) :
    sar W X (W - 1) = allOnes W := by
  unfold sar
  rw [if_neg (Nat.not_lt.mpr h), shiftRight_top_high hW hX h]
  have h1 : W - (W - 1) = 1 := by omega
  rw [h1]
  exact one_or_allOnes_sub_one hW

theorem sar_top_low {W X : Nat} (h : X < 2 ^ (W - 1)) : sar W X (W - 1) = 0 := by
  unfold sar
  rw [if_pos h, shiftRight_top_low h]

theorem wneg_allOnes {W : Nat} (hW : 1 ≤ W) : wneg W (allOnes W) = 1 := by
  have hd := two_pow_pred_double hW
  have hp : 0 < 2 ^ (W - 1) := Nat.two_pow_pos _
  unfold wneg
  rw [Nat.mod_eq_of_lt (allOnes_lt W)]
  unfold allOnes
  have h : 2 ^ W - (2 ^ W - 1) = 1 := by omega
  rw [h]
  exact Nat.mod_eq_of_lt (by omega)

theorem _msign_int_arith_eq {W X : Nat} (hW : 1 ≤ W) (hX : X < 2 ^ W) :
    _msign_int true W X = if 2 ^ (W - 1) ≤ X then 1 else 0 := by
  unfold _msign_int
  simp only [if_true]
  split_ifs with h
  · rw [sar_top_high hW hX h, wneg_allOnes hW]
  · rw [sar_top_low (Nat.lt_of_not_le h), wneg_zero]

/-- C16, at a concrete input: on a 32-bit signed operand with a sign-extending
`>>`, `_msign(-1)` is `1`, so it is not all-ones although `-1 < 0`. -/
theorem msign_signed_minus_one_not_allOnes :
    _msign_int true 32 4294967295 = 1 ∧
      ¬ (_msign_int true 32 4294967295 = allOnes 32 ↔ toSigned 32 4294967295 < 0) := by
  decide

/-- C16, as amended: for every width `W > 1` and every W-bit `X` of signed
type under a sign-extending `>>`, `_msign(X) = -(X >> (W-1))` is `1` exactly
when `X < 0` and zero otherwise, and is never the all-ones value. -/
theorem msign_signed_is_flag (W X : Nat) (hW : 1 < W) (hX : X < 2 ^ W) :
    _msign_int true W X = wneg W (sar W X (W - 1)) ∧
      (_msign_int true W X = 1 ↔ toSigned W X < 0) ∧
      (¬ toSigned W X < 0 → _msign_int true W X = 0) ∧
      _msign_int true W X ≠ allOnes W := by
  have hW1 : 1 ≤ W := Nat.le_of_lt hW
  have hd := two_pow_pred_double hW1
  have hH : 2 ≤ 2 ^ (W - 1) := by
    calc 2 = 2 ^ 1 := by norm_num
      _ ≤ 2 ^ (W - 1) := Nat.pow_le_pow_right (by norm_num) (by omega)
  have hall : allOnes W = 2 ^ W - 1 := rfl
  refine ⟨by unfold _msign_int; simp, ?_⟩
  rw [toSigned_neg_iff hX, _msign_int_arith_eq hW1 hX]
  refine ⟨?_, ?_, ?_⟩
  · by_cases h : 2 ^ (W - 1) ≤ X <;> simp [h]
  · intro h
    rw [if_neg h]
  · split_ifs <;> omega

theorem msign_signed_is_flag_witness :
    _msign_int true 8 200 = wneg 8 (sar 8 200 (8 - 1)) ∧
      (_msign_int true 8 200 = 1 ↔ toSigned 8 200 < 0) ∧
      (¬ toSigned 8 200 < 0 → _msign_int true 8 200 = 0) ∧
      _msign_int true 8 200 ≠ allOnes 8 :=
  msign_signed_is_flag 8 200 (by decide) (by decide)

/-! ## The loops of `test.c` -/

theorem test_native_do_while_run (arith : Bool) :
    native_do_while (Test.cond arith) Test.body 10 ⟨[], 0⟩ =
      some ⟨repeatBlock [Call.body, Call.cond] 10, 10⟩ := by
  cases arith <;> decide

theorem test_native_while_run (arith : Bool) :
    native_while (Test.cond arith) Test.body 11 ⟨[], 0⟩ =
      some ⟨Call.cond :: repeatBlock [Call.body, Call.cond] 10, 10⟩ := by
  cases arith <;> decide

theorem test_native_for_run (arith : Bool) :
    native_for_loop (Test.cond arith) Test.expr_func Test.body 6 ⟨[Call.init], 0⟩ =
      some ⟨Call.init :: Call.cond :: repeatBlock [Call.body, Call.step, Call.cond] 5,
        10⟩ := by
  cases arith <;> decide

/-- C12: with the procedures of `test.c`, whichever way the implementation
shifts a negative `int` and orders the two condition calls of a check,
`branchless_do_while(cond, body)` and `branchless_while(cond, body)` started
right after `init_func` terminate (at every recursion depth of at least 10)
after exactly 10 executions of `body` with `i = 10`, and so do the native
`do-while` and `while` loops. -/
theorem test_while_loops_run_body_ten_times (ltr arith : Bool) (P : Nat)
    (L : CodeAddrs) (s k : Nat) (hP : UINT_BITS ≤ P) (hL : L.valid P) (hk : 10 ≤ k) :
    branchless_do_while ltr P L (Test.cond arith) Test.body k ⟨[], Test.init_func s⟩ =
        some ⟨repeatBlock [Call.body, Call.cond, Call.cond] 10, 10⟩ ∧
      native_do_while (Test.cond arith) Test.body k ⟨[], Test.init_func s⟩ =
        some ⟨repeatBlock [Call.body, Call.cond] 10, 10⟩ ∧
      branchless_while ltr P L (Test.cond arith) Test.body k ⟨[], Test.init_func s⟩ =
        some ⟨Call.cond :: Call.cond :: repeatBlock [Call.body, Call.cond, Call.cond] 10,
          10⟩ ∧
      native_while (Test.cond arith) Test.body (k + 1) ⟨[], Test.init_func s⟩ =
        some ⟨Call.cond :: repeatBlock [Call.body, Call.cond] 10, 10⟩ ∧
      (repeatBlock [Call.body, Call.cond, Call.cond] 10).count Call.body = 10 ∧
      (repeatBlock [Call.body, Call.cond] 10).count Call.body = 10 ∧
      (Call.cond :: Call.cond ::
        repeatBlock [Call.body, Call.cond, Call.cond] 10).count Call.body = 10 ∧
      (Call.cond :: repeatBlock [Call.body, Call.cond] 10).count Call.body = 10 := by
  have hpure : ∀ i, (Test.cond arith i).2 = i := fun _ => rfl
  have hstart : (⟨[], Test.init_func s⟩ : Run Nat) = doubleRun ⟨[], 0⟩ := rfl
  have hdo := native_do_while_mono _ _ 10 _ _ (test_native_do_while_run arith) k hk
  have hwh := native_while_mono _ _ 11 _ _ (test_native_while_run arith) (k + 1)
    (by omega)
  refine ⟨?_, hdo, ?_, hwh, by decide, by decide, by decide, by decide⟩
  · rw [hstart, branchless_do_while_pure ltr hP hL _ _ hpure, hdo]
    rfl
  · rw [hstart, branchless_while_pure ltr hP hL _ _ hpure, hwh]
    rfl

theorem test_while_loops_run_body_ten_times_witness :
    branchless_do_while true 32 layout32 (Test.cond true) Test.body 10
          ⟨[], Test.init_func 7⟩ =
        some ⟨repeatBlock [Call.body, Call.cond, Call.cond] 10, 10⟩ ∧
      native_do_while (Test.cond true) Test.body 10 ⟨[], Test.init_func 7⟩ =
        some ⟨repeatBlock [Call.body, Call.cond] 10, 10⟩ ∧
      branchless_while true 32 layout32 (Test.cond true) Test.body 10
          ⟨[], Test.init_func 7⟩ =
        some ⟨Call.cond :: Call.cond :: repeatBlock [Call.body, Call.cond, Call.cond] 10,
          10⟩ ∧
      native_while (Test.cond true) Test.body (10 + 1) ⟨[], Test.init_func 7⟩ =
        some ⟨Call.cond :: repeatBlock [Call.body, Call.cond] 10, 10⟩ ∧
      (repeatBlock [Call.body, Call.cond, Call.cond] 10).count Call.body = 10 ∧
      (repeatBlock [Call.body, Call.cond] 10).count Call.body = 10 ∧
      (Call.cond :: Call.cond ::
        repeatBlock [Call.body, Call.cond, Call.cond] 10).count Call.body = 10 ∧
      (Call.cond :: repeatBlock [Call.body, Call.cond] 10).count Call.body = 10 :=
  test_while_loops_run_body_ten_times true true 32 layout32 7 10 (by decide) (by decide)
    (by decide)

/-- C13, at a concrete input: with the procedures of `test.c` no terminating
run of `branchless_for(init_func, cond, expr_func, body)` has 10 executions of
`body`; the run has 5. -/
theorem test_for_loop_body_count_is_not_ten :
    branchless_for true 32 layout32 Test.init_func (Test.cond true) Test.expr_func
          Test.body 5 ⟨[], 0⟩ =
        some ⟨Call.init :: Call.cond :: Call.cond ::
          repeatBlock [Call.body, Call.step, Call.cond, Call.cond] 5, 10⟩ ∧
      ¬ ∃ k r', branchless_for true 32 layout32 Test.init_func (Test.cond true)
          Test.expr_func Test.body k ⟨[], 0⟩ = some r' ∧
        r'.trace.count Call.body = 10 ∧ r'.state = 10 := by
  refine ⟨by decide, ?_⟩
  rintro ⟨k, r', hrun, hcount, _⟩
  have hstart : (⟨[], 0⟩ : Run Nat) = doubleRun ⟨[], 0⟩ := rfl
  rw [hstart, branchless_for_pure true (show UINT_BITS ≤ 32 by decide)
    (show layout32.valid 32 by decide) _ _ _ _ (fun _ => rfl)] at hrun
  obtain ⟨rn, hn, hr⟩ := Option.map_eq_some'.mp hrun
  have h5 := test_native_for_run true
  have ha := native_for_loop_mono _ _ _ _ _ _ hn (max (k + 1) 6) (le_max_left _ _)
  have hb := native_for_loop_mono _ _ _ _ _ _ h5 (max (k + 1) 6) (le_max_right _ _)
  have hinit : callProc Call.init Test.init_func (⟨[], 0⟩ : Run Nat) = ⟨[Call.init], 0⟩ :=
    rfl
  rw [hinit, hb] at ha
  have hrn : rn = ⟨Call.init :: Call.cond ::
      repeatBlock [Call.body, Call.step, Call.cond] 5, 10⟩ := (Option.some.inj ha).symm
  rw [← hr, hrn] at hcount
  revert hcount
  decide

/-- C13, as amended: with the procedures of `test.c`, whichever way the
implementation shifts a negative `int` and orders the two condition calls of
a check, `branchless_for(init_func, cond, expr_func, body)` terminates (at
every recursion depth of at least 5) after exactly 5 executions of `body`,
each followed by `expr_func`, with `i = 10`, and so does the native `for`
loop. -/
theorem test_for_loop_runs_body_five_times (ltr arith : Bool) (P : Nat)
    (L : CodeAddrs) (s k : Nat) (hP : UINT_BITS ≤ P) (hL : L.valid P) (hk : 5 ≤ k) :
    branchless_for ltr P L Test.init_func (Test.cond arith) Test.expr_func Test.body k
          ⟨[], s⟩ =
        some ⟨Call.init :: Call.cond :: Call.cond ::
          repeatBlock [Call.body, Call.step, Call.cond, Call.cond] 5, 10⟩ ∧
      native_for Test.init_func (Test.cond arith) Test.expr_func Test.body (k + 1)
          ⟨[], s⟩ =
        some ⟨Call.init :: Call.cond :: repeatBlock [Call.body, Call.step, Call.cond] 5,
          10⟩ ∧
      (Call.init :: Call.cond :: Call.cond ::
        repeatBlock [Call.body, Call.step, Call.cond, Call.cond] 5).count Call.body = 5 ∧
      (Call.init :: Call.cond ::
        repeatBlock [Call.body, Call.step, Call.cond] 5).count Call.body = 5 := by
  have hstart : (⟨[], s⟩ : Run Nat) = doubleRun ⟨[], s⟩ := rfl
  have hinit : callProc Call.init Test.init_func (⟨[], s⟩ : Run Nat) = ⟨[Call.init], 0⟩ :=
    rfl
  have hrun : native_for Test.init_func (Test.cond arith) Test.expr_func Test.body
      (k + 1) ⟨[], s⟩ = some ⟨Call.init :: Call.cond ::
        repeatBlock [Call.body, Call.step, Call.cond] 5, 10⟩ := by
    unfold native_for
    rw [hinit]
    exact native_for_loop_mono _ _ _ 6 _ _ (test_native_for_run arith) (k + 1) (by omega)
  refine ⟨?_, hrun, by decide, by decide⟩
  rw [hstart, branchless_for_pure ltr hP hL _ _ _ _ (fun _ => rfl), hrun]
  rfl

theorem test_for_loop_runs_body_five_times_witness :
    branchless_for true 32 layout32 Test.init_func (Test.cond true) Test.expr_func
          Test.body 5 ⟨[], 77⟩ =
        some ⟨Call.init :: Call.cond :: Call.cond ::
          repeatBlock [Call.body, Call.step, Call.cond, Call.cond] 5, 10⟩ ∧
      native_for Test.init_func (Test.cond true) Test.expr_func Test.body (5 + 1)
          ⟨[], 77⟩ =
        some ⟨Call.init :: Call.cond :: repeatBlock [Call.body, Call.step, Call.cond] 5,
          10⟩ ∧
      (Call.init :: Call.cond :: Call.cond ::
        repeatBlock [Call.body, Call.step, Call.cond, Call.cond] 5).count Call.body = 5 ∧
      (Call.init :: Call.cond ::
        repeatBlock [Call.body, Call.step, Call.cond] 5).count Call.body = 5 :=
  test_for_loop_runs_body_five_times true true 32 layout32 77 5 (by decide) (by decide)
    (by decide)

/-! ## How often the condition procedure is called -/

theorem count_repeatBlock_while (n : Nat) :
    (repeatBlock [Call.body, Call.cond] n).count Call.body = n ∧
      (repeatBlock [Call.body, Call.cond] n).count Call.cond = n := by
  induction n with
  | zero => simp [repeatBlock]
  | succ n ih => simp [repeatBlock, List.count_cons, ih.1, ih.2]

theorem count_repeatBlock_for (n : Nat) :
    (repeatBlock [Call.body, Call.step, Call.cond] n).count Call.body = n ∧
      (repeatBlock [Call.body, Call.step, Call.cond] n).count Call.cond = n := by
  induction n with
  | zero => simp [repeatBlock]
  | succ n ih => simp [repeatBlock, List.count_cons, ih.1, ih.2]

theorem condTwice_repeatBlock_while (n : Nat) :
    condTwice (Call.cond :: repeatBlock [Call.body, Call.cond] n) = false := by
  induction n with
  | zero => simp [repeatBlock, condTwice]
  | succ n ih => simpa [repeatBlock, condTwice] using ih

theorem condTwice_repeatBlock_for (n : Nat) :
    condTwice (Call.cond :: repeatBlock [Call.body, Call.step, Call.cond] n) = false := by
  induction n with
  | zero => simp [repeatBlock, condTwice]
  | succ n ih => simpa [repeatBlock, condTwice] using ih

/-- A native `while` loop that returns made `m + 1` condition checks for some
`m`: check `j` was made in state `whileState cond f j`, the first `m` of them
returned a nonzero value and the last returned zero. -/
theorem native_while_run {σ : Type} (cond : σ → Nat × σ) (f : σ → σ) :
    ∀ (n : Nat) (r r' : Run σ), native_while cond f n r = some r' →
      ∃ m, r'.trace = r.trace ++ Call.cond :: repeatBlock [Call.body, Call.cond] m ∧
        (∀ j, j < m → wcast UINT_BITS (cond (whileState cond f j r.state)).1 ≠ 0) ∧
        wcast UINT_BITS (cond (whileState cond f m r.state)).1 = 0 := by
  intro n
  induction n with
  | zero => intro r r' h; simp [native_while] at h
  | succ n ih =>
    intro r r' h
    simp only [native_while] at h
    by_cases hc : (callCond cond r).1 = 0
    · simp only [hc, ne_eq, not_true_eq_false, if_false, Option.some.injEq] at h
      exact ⟨0, by rw [← h]; rfl, fun j hj => absurd hj (Nat.not_lt_zero j), hc⟩
    · simp only [hc, ne_eq, not_false_eq_true, if_true] at h
      obtain ⟨m, hm, hnz, hz⟩ := ih _ _ h
      refine ⟨m + 1, by rw [hm]; simp [callProc, callCond, repeatBlock], ?_, hz⟩
      intro j hj
      cases j with
      | zero => exact hc
      | succ i => exact hnz i (by omega)

theorem native_for_loop_run {σ : Type} (cond : σ → Nat × σ) (step : σ → σ)
    (body : σ → σ) :
    ∀ (n : Nat) (r r' : Run σ), native_for_loop cond step body n r = some r' →
      ∃ m, r'.trace =
          r.trace ++ Call.cond :: repeatBlock [Call.body, Call.step, Call.cond] m ∧
        (∀ j, j < m →
          wcast UINT_BITS (cond (forState cond step body j r.state)).1 ≠ 0) ∧
        wcast UINT_BITS (cond (forState cond step body m r.state)).1 = 0 := by
  intro n
  induction n with
  | zero => intro r r' h; simp [native_for_loop] at h
  | succ n ih =>
    intro r r' h
    simp only [native_for_loop] at h
    by_cases hc : (callCond cond r).1 = 0
    · simp only [hc, ne_eq, not_true_eq_false, if_false, Option.some.injEq] at h
      exact ⟨0, by rw [← h]; rfl, fun j hj => absurd hj (Nat.not_lt_zero j), hc⟩
    · simp only [hc, ne_eq, not_false_eq_true, if_true] at h
      obtain ⟨m, hm, hnz, hz⟩ := ih _ _ h
      refine ⟨m + 1, by rw [hm]; simp [callProc, callCond, repeatBlock], ?_, hz⟩
      intro j hj
      cases j with
      | zero => exact hc
      | succ i => exact hnz i (by omega)

/-- C17: on the pure condition `below3` with body `bump`, started at 0,
`branchless_while` runs the body 3 times and calls the condition 8 times,
`branchless_do_while` runs it 3 times and calls the condition 6 times, and
`branchless_for` (started at 9, initializer `reset`, step `bump`) runs it 2
times and calls the condition 6 times: two calls in a row at every check,
where the claim has 4, 3 and 3 calls, none adjacent. -/
theorem cond_called_twice_per_check :
    branchless_while true 32 layout32 below3 bump 3 ⟨[], 0⟩ =
        some ⟨[Call.cond, Call.cond, Call.body, Call.cond, Call.cond, Call.body,
          Call.cond, Call.cond, Call.body, Call.cond, Call.cond], 3⟩ ∧
      List.count Call.cond [Call.cond, Call.cond, Call.body, Call.cond, Call.cond,
        Call.body, Call.cond, Call.cond, Call.body, Call.cond, Call.cond] = 8 ∧
      condTwice [Call.cond, Call.cond, Call.body, Call.cond, Call.cond, Call.body,
        Call.cond, Call.cond, Call.body, Call.cond, Call.cond] = true ∧
      branchless_do_while true 32 layout32 below3 bump 3 ⟨[], 0⟩ =
        some ⟨[Call.body, Call.cond, Call.cond, Call.body, Call.cond, Call.cond,
          Call.body, Call.cond, Call.cond], 3⟩ ∧
      List.count Call.cond [Call.body, Call.cond, Call.cond, Call.body, Call.cond,
        Call.cond, Call.body, Call.cond, Call.cond] = 6 ∧
      condTwice [Call.body, Call.cond, Call.cond, Call.body, Call.cond, Call.cond,
        Call.body, Call.cond, Call.cond] = true ∧
      branchless_for true 32 layout32 reset below3 bump bump 2 ⟨[], 9⟩ =
        some ⟨[Call.init, Call.cond, Call.cond, Call.body, Call.step, Call.cond,
          Call.cond, Call.body, Call.step, Call.cond, Call.cond], 4⟩ ∧
      List.count Call.cond [Call.init, Call.cond, Call.cond, Call.body, Call.step,
        Call.cond, Call.cond, Call.body, Call.step, Call.cond, Call.cond] = 6 ∧
      condTwice [Call.init, Call.cond, Call.cond, Call.body, Call.step, Call.cond,
        Call.cond, Call.body, Call.step, Call.cond, Call.cond] = true := by
  decide

end BranchlessControl
